import Mathlib

/-!
# goBloodyEll — verification of the batch query-runner core

Shallow embedding of the engine of `goBloodyEll` (a Go batch runner for
read-only Neo4j queries) together with proofs about the claims of its
natural-language specification.

Embedded components and their Go sources:

* error classification `looksTransient`   — `internal/neo4jrunner/runner.go`
* retry/backoff loop `execWithRetries`    — `internal/neo4jrunner/runner.go`
* the bounded worker pool `Run`           — `internal/neo4jrunner/runner.go`,
  modelled as a small-step transition system over explicit interleavings
* admission scan `CanRunCypher`           — `internal/schema` (regexes
  `reLabel` / `reRel`)
* row collection and LIMIT handling of `ExecCypher` — `internal/neo4jrunner/types.go`
* the plan/merge loops of `main`          — `cmd/goBloodyEll/main.go`
-/

namespace GoBloodyEll

/-! ## Go-side primitive model: errors and strings -/
/-- Model of a Go `error` value as the runner observes it.  `classification`
is `some c` when `errors.As(err, &neo4jErr)` succeeds and the driver reports
classification `c`; it is `none` for plain (non-`Neo4jError`) errors, in which
case only the message `msg` is available. -/
structure GoError where
  classification : Option String
  msg : String
deriving DecidableEq, Repr

/-- ASCII lower-casing of a character, as `strings.ToLower` acts on the
ASCII-only messages and substrings involved here. -/
def lowerChar (c : Char) : Char :=
  if 'A' ≤ c ∧ c ≤ 'Z' then Char.ofNat (c.toNat + 32) else c

/-- ASCII lower-casing of a string (model of `strings.ToLower`). -/
def lowerStr (s : String) : String := String.mk (s.data.map lowerChar)

/-- Whether `sub` occurs contiguously inside `s` (model of `strings.Contains`). -/
def listContainsSub (s sub : List Char) : Bool :=
  (List.range (s.length + 1)).any fun i => sub.isPrefixOf (s.drop i)

/-- Model of `strings.Contains(s, sub)`. -/
def strContains (s sub : String) : Bool := listContainsSub s.data sub.data

/-! ## `looksTransient` (internal/neo4jrunner/runner.go, lines 139–154) -/
/-- The exact substring table of `looksTransient` in the source. -/
def transientSubstrings : List String :=
  ["connection refused", "i/o timeout", "temporary", "EOF", "broken pipe",
   "reset by peer", "ServiceUnavailable"]

/-- Model of `looksTransient`: a driver-classified error is transient iff its
classification is `"TransientError"`; otherwise the lower-cased message is
scanned for the lower-cased entries of `transientSubstrings`. -/
def looksTransient (e : GoError) : Bool :=
  match e.classification with
  | some c => c == "TransientError"
  | none =>
      transientSubstrings.any fun sub => strContains (lowerStr e.msg) (lowerStr sub)

/-- Modelled from the spec's words (§4.2): the substring table the spec
states, i.e. "connection refused, timeout, temporary failure, unexpected end
of stream, broken pipe, connection reset, service unavailable". -/
def specTransientSubstrings : List String :=
  ["connection refused", "timeout", "temporary failure", "unexpected end of stream",
   "broken pipe", "connection reset", "service unavailable"]

/-- Modelled from the spec's words: transient iff the backend classification
marks it transient, or, with no classification present, the message
case-insensitively contains one of `specTransientSubstrings`. -/
def specLooksTransient (e : GoError) : Bool :=
  match e.classification with
  | some c => c == "TransientError"
  | none =>
      specTransientSubstrings.any fun sub => strContains (lowerStr e.msg) (lowerStr sub)

/-! ## Result sets (internal/neo4jrunner/types.go)

`ResultSet.Rows` is `[][]any` in Go; the row-entry type is abstracted as a
type parameter `α` since the engine never inspects the values. -/
/-- Model of `neo4jrunner.ResultSet`. -/
structure ResultSet (α : Type) where
  columns : List String
  rows : List (List α)
deriving DecidableEq, Repr

/-! ## `execWithRetries` (internal/neo4jrunner/runner.go, lines 112–137)

The backend call, the cancellation context checked via `ctx.Err()` after a
failed attempt, and `ctx.Done()` firing during the backoff sleep are all
oracles indexed by the attempt number, so the theorems quantify over every
possible environment behaviour. -/
/-- Environment oracle for one `execWithRetries` call.  `exec n` is the
result of the `exec(ctx, sess, cypher, limit)` call on attempt `n` (0-based);
`ctxErrAfter n` is what `ctx.Err()` reports right after attempt `n` failed;
`cancelDuringSleep n` is `some ce` when `ctx.Done()` fires (with `ctx.Err() =
ce`) before the backoff sleep after attempt `n` completes. -/
structure RetryOracle (α : Type) where
  exec : Nat → Except GoError (ResultSet α)
  ctxErrAfter : Nat → Option GoError
  cancelDuringSleep : Nat → Option GoError

/-- The `for attempt := 0; attempt <= retries; attempt++` loop of
`execWithRetries`, with `remaining` iterations left and `lastErr` as in the
source.  Besides the returned `(ResultSet, error)` pair it records the list of
completed backoff sleeps (in ms) and the number of `exec` calls performed. -/
def execWithRetriesLoop (o : RetryOracle α) :
    Nat → Nat → Option GoError → (ResultSet α × Option GoError) × List Nat × Nat
  | _, 0, lastErr => ((⟨[], []⟩, lastErr), [], 0)
  | attempt, remaining + 1, _ =>
    match o.exec attempt with
    | .ok rs => ((rs, none), [], 1)
    | .error e =>
      match o.ctxErrAfter attempt with
      | some ce => ((⟨[], []⟩, some ce), [], 1)
      | none =>
        if looksTransient e then
          match o.cancelDuringSleep attempt with
          | some ce => ((⟨[], []⟩, some ce), [], 1)
          | none =>
            let r := execWithRetriesLoop o (attempt + 1) remaining (some e)
            (r.1, 200 * (attempt + 1) :: r.2.1, r.2.2 + 1)
        else ((⟨[], []⟩, some e), [], 1)

/-- Model of `execWithRetries(ctx, sess, cypher, limit, retries, exec)`:
the loop runs attempts `0 .. retries` (so `retries + 1` iterations). -/
def execWithRetries (o : RetryOracle α) (retries : Nat) :
    (ResultSet α × Option GoError) × List Nat × Nat :=
  execWithRetriesLoop o 0 (retries + 1) none

/-- Attempt `attempt + i` fails with a transient error and neither
cancellation signal fires around it. -/
def cleanTransientFail (o : RetryOracle α) (i : Nat) : Prop :=
  (∃ e, o.exec i = .error e ∧ looksTransient e = true) ∧
  o.ctxErrAfter i = none ∧ o.cancelDuringSleep i = none

/-- Concrete oracle for the `C2` witness: attempt 0 fails with a transient
network error, attempt 1 succeeds with one row. -/
def retryWitOracle : RetryOracle Nat where
  exec := fun i => if i = 0 then .error ⟨none, "write: broken pipe"⟩ else .ok ⟨["c"], [[5]]⟩
  ctxErrAfter := fun _ => none
  cancelDuringSleep := fun _ => none

/-- Concrete oracle for the `C7` witness: a permanent (non-transient) error. -/
def permErrOracle : RetryOracle Nat where
  exec := fun _ => .error ⟨some "ClientError", "syntax error"⟩
  ctxErrAfter := fun _ => none
  cancelDuringSleep := fun _ => none

/-- Concrete oracle for the `C8` witness: every attempt fails transiently;
the cancellation signal fires during the sleep after attempt 2 (0-based). -/
def cancelWitOracle : RetryOracle Nat where
  exec := fun _ => .error ⟨none, "dial: connection refused"⟩
  ctxErrAfter := fun _ => none
  cancelDuringSleep := fun i => if i = 2 then some ⟨none, "context deadline exceeded"⟩ else none

/-! ## `ExecCypher` (internal/neo4jrunner/types.go, lines 25–65)

Only the pure parts are embedded: the query-text preparation (trim plus the
conditional `LIMIT n` append) and the record-collection loop with its row
cap.  The backend record stream is a list of records, each exposing `Keys`
and per-key values. -/
/-- A record of the backend result stream (`rec.Keys` / `rec.Get`). -/
structure NeoRec (α : Type) where
  keys : List String
  get : String → α

/-- ASCII whitespace, as `strings.TrimSpace` treats the query texts here. -/
def isSpaceChar (c : Char) : Bool := c = ' ' ∨ c = '\t' ∨ c = '\n' ∨ c = '\r'

/-- Model of `strings.TrimSpace`: strip leading and trailing whitespace. -/
def trimSpace (s : String) : String :=
  String.mk (((s.data.dropWhile isSpaceChar).reverse.dropWhile isSpaceChar).reverse)

/-- The query text actually sent by `ExecCypher`: the input is trimmed, and
`"\nLIMIT <limit>"` is appended iff `limit > 0` and the lower-cased trimmed
text does not already contain the substring `"limit"`. -/
def execCypherQuery (limit : Int) (cypher : String) : String :=
  let cy := trimSpace cypher
  if limit > 0 && !strContains (lowerStr cy) "limit" then
    cy ++ "\nLIMIT " ++ toString limit
  else cy

/-- The `for res.Next(ctx)` collection loop of `ExecCypher`: appends one row
per record and breaks once `limit > 0 && len(rows) >= limit`.  `cols` is the
`var cols []string` that is set from the first record's keys. -/
def collectRows (limit : Int) :
    List (NeoRec α) → Option (List String) → List (List α) →
      Option (List String) × List (List α)
  | [], cols, rows => (cols, rows)
  | r :: rest, cols, rows =>
    let cols2 := match cols with | none => some r.keys | some cs => some cs
    let rows2 := rows ++ [r.keys.map r.get]
    if limit > 0 ∧ (rows2.length : Int) ≥ limit then (cols2, rows2)
    else collectRows limit rest cols2 rows2

/-- The `ResultSet` built by `ExecCypher` on a successful read of the given
record stream (`cols == nil` is replaced by the empty column list). -/
def execCypherResult (limit : Int) (records : List (NeoRec α)) : ResultSet α :=
  { columns := (collectRows limit records none []).1.getD [],
    rows := (collectRows limit records none []).2 }

/-- Record stream for the `C10` witness. -/
def witRecA : NeoRec Nat := ⟨["n"], fun _ => 1⟩

/-- Second record for the `C10` witness. -/
def witRecB : NeoRec Nat := ⟨["n"], fun _ => 2⟩

/-! ## Admission scan (internal/schema: `reLabel`, `reRel`, `CanRunCypher`)

The two Go regexes are

    reLabel = `:([A-Za-z0-9_]+)`
    reRel   = `\[:([A-Za-z0-9_]+)`

and `FindAllStringSubmatch` collects, left to right, all non-overlapping
matches, resuming after the end of each match (or one position further on a
failed start).  Each regex is embedded as a left-to-right scanner over the
character list; the scanner state says where we are inside a candidate
match. -/
/-- The identifier characters `[A-Za-z0-9_]` of both regexes. -/
def isWordChar (c : Char) : Bool := c.isAlphanum || c = '_'

/-- Scanner for `reLabel`.  The state is `none` outside a match and
`some acc` when a `:` has been seen and `acc` is the identifier read so far.
A match fails when the `:` is not followed by at least one word character; a
current character that is itself `:` starts the next candidate match, exactly
as the regex scan resumes at that position. -/
def reLabelScan : List Char → Option (List Char) → List String
  | [], none => []
  | [], some acc => if acc.isEmpty then [] else [String.mk acc]
  | c :: rest, none =>
    if c = ':' then reLabelScan rest (some []) else reLabelScan rest none
  | c :: rest, some acc =>
    if isWordChar c then reLabelScan rest (some (acc ++ [c]))
    else
      (if acc.isEmpty then [] else [String.mk acc]) ++
        (if c = ':' then reLabelScan rest (some []) else reLabelScan rest none)

/-- All captured identifiers of `reLabel.FindAllStringSubmatch(s, -1)`. -/
def reLabelTokens (s : List Char) : List String := reLabelScan s none

/-- Scanner state for `reRel`: outside a match, after a `[`, or inside the
identifier following `[:`. -/
inductive RelScanState where
  | plain
  | bracket
  | word (acc : List Char)

/-- Scanner for `reRel`.  From `plain`, a `[` enters `bracket`; from
`bracket`, a `:` enters the identifier, a further `[` stays in `bracket`
(the new `[` could itself start a match), anything else returns to `plain`. -/
def reRelScan : List Char → RelScanState → List String
  | [], .word acc => if acc.isEmpty then [] else [String.mk acc]
  | [], _ => []
  | c :: rest, .plain =>
    if c = '[' then reRelScan rest .bracket else reRelScan rest .plain
  | c :: rest, .bracket =>
    if c = ':' then reRelScan rest (.word [])
    else if c = '[' then reRelScan rest .bracket
    else reRelScan rest .plain
  | c :: rest, .word acc =>
    if isWordChar c then reRelScan rest (.word (acc ++ [c]))
    else
      (if acc.isEmpty then [] else [String.mk acc]) ++
        (if c = '[' then reRelScan rest .bracket else reRelScan rest .plain)

/-- All captured identifiers of `reRel.FindAllStringSubmatch(s, -1)`. -/
def reRelTokens (s : List Char) : List String := reRelScan s .plain

/-- Model of `schema.Presence`: the sets of lower-cased node-label and
relationship-type names known to the database, as lists with `contains`
membership. -/
structure Presence where
  labels : List String
  rels : List String
deriving DecidableEq, Repr

/-- One scan loop of `CanRunCypher`: the first token (in match order) whose
lower-casing is non-empty and absent from `present` (mirrors the
`for _, m := range …`, `if l == "" continue`, `if _, ok := …; !ok` loop). -/
def firstMissing (tokens present : List String) : Option String :=
  tokens.find? fun t => !(lowerStr t == "") && !present.contains (lowerStr t)

/-- Model of `schema.CanRunCypher`: check every `reLabel` capture against
`p.Labels`, then every `reRel` capture against `p.Rels`; report the first
missing token with its class, else runnable. -/
def CanRunCypher (cypher : String) (p : Presence) : Bool × String :=
  match firstMissing (reLabelTokens cypher.data) p.labels with
  | some t => (false, "missing label: " ++ t)
  | none =>
    match firstMissing (reRelTokens cypher.data) p.rels with
    | some t => (false, "missing relationship type: " ++ t)
    | none => (true, "")

/-- The `reLabel` scanner state corresponding to a `reRel` scanner state:
inside the identifier of `[:w`, the label scanner is inside the identifier of
`:w`; everywhere else it is in plain state. -/
def relStateMap : RelScanState → Option (List Char)
  | .plain => none
  | .bracket => none
  | .word acc => some acc

/-! ## The bounded worker pool `Run` (internal/neo4jrunner/runner.go, 39–110)

`Run` starts `opts.Parallel` workers (coerced to ≥ 1) that pull jobs from an
unbuffered channel fed by a producer goroutine; a `stopCh` closed by the
first fail-fast error gates both sides.  The model is a small-step
transition system: a state records the producer's remaining jobs, whether
the channel has been closed, each worker's status, the stop flag and the
pre-allocated output slice; an execution is an arbitrary list of actions
(an interleaving).  A dispatch is the joint send/receive on the unbuffered
channel.  Because Go's `select` picks uniformly among *ready* cases, closing
`stopCh` does not make dispatch impossible — it only adds the exit/return
cases — so `dispatch` stays enabled while `stopped` is set, as long as the
producer has not returned.  The per-job execution (timeout derivation plus
`execWithRetries`) is abstracted by the oracle `execOut` giving each job's
`(ResultSet, error)` outcome, and `finish` performs the single write
`out[job.Index] = QueryResult{...}` plus the fail-fast `stop()`. -/
/-- Model of `neo4jrunner.QueryJob`. -/
structure QueryJob where
  index : Nat
  id : String
  name : String
  cypher : String
deriving DecidableEq, Repr

/-- Model of `neo4jrunner.QueryResult`. -/
structure QueryResult (α : Type) where
  resultSet : ResultSet α
  err : Option GoError
  skipped : Bool
  skipWhy : String
deriving DecidableEq, Repr

/-- The Go zero value of `QueryResult` (`make([]QueryResult, len(jobs))`). -/
def zeroResult (α : Type) : QueryResult α := ⟨⟨[], []⟩, none, false, ""⟩

/-- Model of `neo4jrunner.RunnerOpts` (durations in milliseconds). -/
structure RunnerOpts where
  db : String
  limit : Int
  parallel : Int
  perQueryTimeoutMs : Int
  retries : Int
  failFast : Bool
  verbose : Bool
deriving DecidableEq, Repr

/-- A worker goroutine's status: blocked in its `select`, executing a job,
or returned. -/
inductive WorkerState where
  | idle
  | busy (job : QueryJob)
  | exited
deriving DecidableEq, Repr

/-- Global state of one `Run` call. -/
structure RunState (α : Type) where
  pending : List QueryJob
  producerDone : Bool
  workers : List WorkerState
  stopped : Bool
  out : List (QueryResult α)
deriving DecidableEq, Repr

/-- Scheduler actions: `dispatch w` is the joint channel send/receive giving
the head pending job to idle worker `w`; `finish w` completes the job worker
`w` is executing (writing its output slot and possibly raising the stop
flag); `producerClose` is the producer returning — having sent every job or
via the stop case — and closing the channel; `workerExit w` is an idle
worker returning via the stop case or the closed channel. -/
inductive RunAction where
  | dispatch (w : Nat)
  | finish (w : Nat)
  | producerClose
  | workerExit (w : Nat)
deriving DecidableEq, Repr

/-- The `QueryResult` the worker writes for job `j`:
`out[job.Index] = QueryResult{ResultSet: rs, Err: err}`. -/
def outOf (execOut : QueryJob → ResultSet α × Option GoError) (j : QueryJob) :
    QueryResult α :=
  ⟨(execOut j).1, (execOut j).2, false, ""⟩

/-- One transition.  `none` means the action is not enabled in this state. -/
def runStep (execOut : QueryJob → ResultSet α × Option GoError) (failFast : Bool)
    (s : RunState α) : RunAction → Option (RunState α)
  | .dispatch w =>
    match s.workers[w]?, s.pending with
    | some .idle, j :: rest =>
      if s.producerDone then none
      else some { s with workers := s.workers.set w (.busy j), pending := rest }
    | _, _ => none
  | .finish w =>
    match s.workers[w]? with
    | some (.busy j) =>
      some { s with
        workers := s.workers.set w .idle,
        out := s.out.set j.index (outOf execOut j),
        stopped := s.stopped || (failFast && (execOut j).2.isSome) }
    | _ => none
  | .producerClose =>
    if !s.producerDone && (s.pending.isEmpty || s.stopped) then
      some { s with producerDone := true }
    else none
  | .workerExit w =>
    match s.workers[w]? with
    | some .idle =>
      if s.stopped || s.producerDone then
        some { s with workers := s.workers.set w .exited }
      else none
    | _ => none

/-- Run a whole interleaving. -/
def runSteps (execOut : QueryJob → ResultSet α × Option GoError) (failFast : Bool) :
    RunState α → List RunAction → Option (RunState α)
  | s, [] => some s
  | s, a :: acts =>
    match runStep execOut failFast s a with
    | some s2 => runSteps execOut failFast s2 acts
    | none => none

/-- The state at entry of `Run`: parallelism coerced to ≥ 1, all workers
started idle, `out := make([]QueryResult, len(jobs))`. -/
def initRun (α : Type) (jobs : List QueryJob) (opts : RunnerOpts) : RunState α :=
  { pending := jobs
    producerDone := false
    workers := List.replicate (if opts.parallel < 1 then 1 else opts.parallel).toNat .idle
    stopped := false
    out := List.replicate jobs.length (zeroResult α) }

/-- Whether `Run` returns (the `wg.Wait()` completes): exactly when every worker has
exited. -/
def isTerminal (s : RunState α) : Bool := s.workers.all fun w => w == .exited

/-- Inductive invariant of the worker pool, indexed by the number `k` of
jobs dispatched so far: the pending list is the undispached suffix; busy
jobs come from the dispatched prefix, no two workers execute jobs of the
same index; every output slot is still zero or holds the outcome of the
unique job with that index (whose execution has finished); every dispatched
job is in flight or accounted for in its slot. -/
structure RunInv (execOut : QueryJob → ResultSet α × Option GoError)
    (jobs : List QueryJob) (k : Nat) (s : RunState α) : Prop where
  k_le : k ≤ jobs.length
  out_len : s.out.length = jobs.length
  pending_eq : s.pending = jobs.drop k
  busy_mem : ∀ (w : Nat) (j : QueryJob),
      s.workers[w]? = some (WorkerState.busy j) → j ∈ jobs.take k
  busy_uniq : ∀ (w1 w2 : Nat) (j1 j2 : QueryJob),
      s.workers[w1]? = some (WorkerState.busy j1) →
      s.workers[w2]? = some (WorkerState.busy j2) → j1.index = j2.index → w1 = w2
  out_char : ∀ i, i < jobs.length →
      s.out[i]? = some (zeroResult α) ∨
      ∃ j, j ∈ jobs.take k ∧ j.index = i ∧ s.out[i]? = some (outOf execOut j) ∧
        ∀ (w : Nat), s.workers[w]? ≠ some (WorkerState.busy j)
  disp_acct : ∀ j, j ∈ jobs.take k →
      (∃ (w : Nat), s.workers[w]? = some (WorkerState.busy j)) ∨
        s.out[j.index]? = some (outOf execOut j)

/-- Jobs for the `C1` witness. -/
def wjobs : List QueryJob := [⟨0, "a", "A", "Q0"⟩, ⟨1, "b", "B", "Q1"⟩]

/-- Outcome oracle for the `C1` witness: both jobs succeed. -/
def wexec : QueryJob → ResultSet Nat × Option GoError :=
  fun j => (⟨["x"], [[j.index]]⟩, none)

/-- Options for the `C1` witness. -/
def wopts : RunnerOpts := ⟨"neo4j", 0, 2, 30000, 1, false, false⟩

/-- An interleaving for the `C1` witness in which job 1 finishes before
job 0. -/
def wacts : List RunAction :=
  [.dispatch 0, .dispatch 1, .finish 1, .finish 0, .producerClose,
   .workerExit 0, .workerExit 1]

/-- Final state of the `C1` witness run. -/
def wfinal : RunState Nat :=
  ⟨[], true, [.exited, .exited], false,
   [⟨⟨["x"], [[0]]⟩, none, false, ""⟩, ⟨⟨["x"], [[1]]⟩, none, false, ""⟩]⟩

/-- Jobs `{0,…,4}` of the spec's fail-fast example. -/
def cjobs : List QueryJob :=
  [⟨0, "q0", "Q0", "C0"⟩, ⟨1, "q1", "Q1", "C1"⟩, ⟨2, "q2", "Q2", "C2"⟩,
   ⟨3, "q3", "Q3", "C3"⟩, ⟨4, "q4", "Q4", "C4"⟩]

/-- Outcome oracle of the fail-fast example: job 1 fails, the others
succeed. -/
def cexec : QueryJob → ResultSet Nat × Option GoError :=
  fun j =>
    if j.index = 1 then (⟨[], []⟩, some ⟨none, "syntax error"⟩)
    else (⟨["x"], [[j.index]]⟩, none)

/-- Options of the fail-fast example: parallelism 2, fail-fast on. -/
def copts : RunnerOpts := ⟨"neo4j", 0, 2, 30000, 1, true, false⟩

/-- Interleaving of the fail-fast example: jobs 0 and 1 are dispatched, job
1 fails (raising the stop flag), job 0 completes normally, then producer and
workers exit via the stop signal; jobs 2–4 are never dispatched. -/
def cacts : List RunAction :=
  [.dispatch 0, .dispatch 1, .finish 1, .finish 0, .producerClose,
   .workerExit 0, .workerExit 1]

/-- Final state of the fail-fast example. -/
def cfinal : RunState Nat :=
  ⟨[⟨2, "q2", "Q2", "C2"⟩, ⟨3, "q3", "Q3", "C3"⟩, ⟨4, "q4", "Q4", "C4"⟩], true,
   [.exited, .exited], true,
   [⟨⟨["x"], [[0]]⟩, none, false, ""⟩,
    ⟨⟨[], []⟩, some ⟨none, "syntax error"⟩, false, ""⟩,
    zeroResult Nat, zeroResult Nat, zeroResult Nat]⟩

/-! ## Plan/merge of `main` (cmd/goBloodyEll/main.go, lines 249–274)

The first loop walks the selected queries, records a skipped `Output` for
every query the admission check rejects (when `schemaSkip` is on), and
builds the job list (with `Index = len(jobs)`) plus `jobToQueryIdx`; after
`Run` returns, the second loop writes each scheduler result into the output
slot of its originating query. -/
/-- Model of `queries.Query` (the fields the merge touches). -/
structure Query where
  id : String
  title : String
  category : String
  sheetName : String
  cypher : String
deriving DecidableEq, Repr

/-- Model of `report.Output`. -/
structure Output (α : Type) where
  query : Query
  result : ResultSet α
  error : String
  skipped : Bool
  skipWhy : String
deriving DecidableEq, Repr

/-- Go zero value of `queries.Query`. -/
def zeroQuery : Query := ⟨"", "", "", "", ""⟩

/-- Go zero value of `report.Output`
(`outs := make([]report.Output, len(qs))`). -/
def zeroOutput (α : Type) : Output α := ⟨zeroQuery, ⟨[], []⟩, "", false, ""⟩

/-- The first loop of the merge (`for i, q := range qs`), carrying the
original index `i` and the job counter `jcount = len(jobs)`: returns the
output slice after the skip pass, the job list handed to `Run`, and
`jobToQueryIdx`. -/
def planLoop {α : Type} (schemaSkip : Bool) (p : Presence) :
    List Query → Nat → Nat → List (Output α) × List QueryJob × List Nat
  | [], _, _ => ([], [], [])
  | q :: rest, i, jcount =>
    if schemaSkip && !(CanRunCypher q.cypher p).1 then
      let r := planLoop schemaSkip p rest (i + 1) jcount
      (⟨q, ⟨[], []⟩, "", true, (CanRunCypher q.cypher p).2⟩ :: r.1, r.2.1, r.2.2)
    else
      let r := planLoop schemaSkip p rest (i + 1) (jcount + 1)
      (zeroOutput α :: r.1, ⟨jcount, q.id, q.sheetName, q.cypher⟩ :: r.2.1,
        i :: r.2.2)

/-- The `Output` built for a dispatched query from its scheduler result
(`o := report.Output{Query: qs[i], Result: r.ResultSet}`, with `o.Error =
r.Err.Error()` when the error is non-nil; `GoError.msg` models `Error()`). -/
def outputOfResult {α : Type} (q : Query) (r : QueryResult α) : Output α :=
  ⟨q, r.resultSet, (match r.err with | some e => e.msg | none => ""), false, ""⟩

/-- The second loop of the merge (`for j, r := range results`): pairs each
scheduler result with `jobToQueryIdx[j]` and overwrites that output slot.
(When `results` outruns `jobToQueryIdx`, Go would panic on the index; the
length hypothesis of the theorems rules that out.) -/
def mergeLoop {α : Type} (qs : List Query) :
    List (QueryResult α) → List Nat → List (Output α) → List (Output α)
  | [], _, outs => outs
  | _ :: _, [], outs => outs
  | r :: results, i :: j2q, outs =>
    mergeLoop qs results j2q (outs.set i (outputOfResult (qs.getD i zeroQuery) r))

/-- The whole merge of `main`: plan pass, then result pass. -/
def assembleOutputs {α : Type} (schemaSkip : Bool) (p : Presence)
    (qs : List Query) (results : List (QueryResult α)) : List (Output α) :=
  let r := planLoop schemaSkip p qs 0 0
  mergeLoop qs results r.2.2 r.1

/-- Modelled from the spec's words (§4.4): merge planner-skip decisions with
scheduler outcomes into one index-ordered collection of length equal to the
original query list, each entry carrying either `skipped = true` with the
admission reason, or the scheduler's result set / error message for that
query; `none` when the scheduler outcomes cannot be matched one-to-one with
the dispatched queries. -/
def specAssemble {α : Type} (schemaSkip : Bool) (p : Presence) :
    List Query → List (QueryResult α) → Option (List (Output α))
  | [], [] => some []
  | [], _ :: _ => none
  | q :: rest, results =>
    if schemaSkip && !(CanRunCypher q.cypher p).1 then
      (specAssemble schemaSkip p rest results).map
        (fun outs => ⟨q, ⟨[], []⟩, "", true, (CanRunCypher q.cypher p).2⟩ :: outs)
    else
      match results with
      | r :: rs =>
        (specAssemble schemaSkip p rest rs).map
          (fun outs => outputOfResult q r :: outs)
      | [] => none

/-- A query the admission check skips (label `Ghost` unknown). -/
def wq1 : Query := ⟨"id1", "T1", "AD", "S1", "MATCH (x:Ghost) RETURN x"⟩

/-- A runnable query (label `User` known). -/
def wq2 : Query := ⟨"id2", "T2", "AD", "S2", "MATCH (u:User) RETURN u"⟩

/-- Presence for the `C9` witness. -/
def wpres : Presence := ⟨["user"], []⟩

/-- Scheduler result of the one dispatched job in the `C9` witness. -/
def wres1 : QueryResult Nat := ⟨⟨["u"], [[7]]⟩, none, false, ""⟩

example : looksTransient ⟨none, "read tcp: connection reset by peer"⟩ = true := by decide

example : looksTransient ⟨none, "timeout"⟩ = false := by decide

example : specLooksTransient ⟨none, "timeout"⟩ = true := by decide

example : looksTransient ⟨some "TransientError", "x"⟩ = true := by decide

example : looksTransient ⟨some "ClientError", "i/o timeout"⟩ = false := by decide

/-- Claim C3 counterexample: The claim states that every unclassified error
whose message contains "timeout" (case-insensitively) is classified
transient.  The code's substring table contains "i/o timeout", not
"timeout": the unclassified error with message `"timeout"` is *not*
classified transient, while the spec's stated table would classify it
transient. -/
theorem looksTransient_counterexample :
    looksTransient ⟨none, "timeout"⟩ = false ∧
    specLooksTransient ⟨none, "timeout"⟩ = true := by decide

/-- Claim C3 amended: `looksTransient` classifies an error transient iff the
backend's own classification is `"TransientError"`, or, when no
classification is present, its message case-insensitively contains one of
the code's fixed substrings: "connection refused", "i/o timeout",
"temporary", "EOF", "broken pipe", "reset by peer", "ServiceUnavailable"
(not the spec's paraphrased list). -/
theorem looksTransient_amended (e : GoError) :
    looksTransient e = true ↔
      e.classification = some "TransientError" ∨
        (e.classification = none ∧
          ∃ sub ∈ transientSubstrings,
            strContains (lowerStr e.msg) (lowerStr sub) = true) := by
  cases hc : e.classification with
  | some c => simp [looksTransient, hc]
  | none => simp [looksTransient, hc, List.any_eq_true]

/-- Unfolding of one transient-failure iteration of the retry loop. -/
theorem execWithRetriesLoop_step (o : RetryOracle α) (attempt r : Nat)
    (lastErr : Option GoError) (e : GoError)
    (he : o.exec attempt = .error e) (htr : looksTransient e = true)
    (hctx : o.ctxErrAfter attempt = none) (hcan : o.cancelDuringSleep attempt = none) :
    execWithRetriesLoop o attempt (r + 1) lastErr =
      ((execWithRetriesLoop o (attempt + 1) r (some e)).1,
        200 * (attempt + 1) :: (execWithRetriesLoop o (attempt + 1) r (some e)).2.1,
        (execWithRetriesLoop o (attempt + 1) r (some e)).2.2 + 1) := by
  simp [execWithRetriesLoop, he, hctx, htr, hcan]

theorem execWithRetriesLoop_succeeds (o : RetryOracle α) (rs : ResultSet α) :
    ∀ (m attempt remaining : Nat) (lastErr : Option GoError),
      m < remaining →
      (∀ i, i < m → cleanTransientFail o (attempt + i)) →
      o.exec (attempt + m) = .ok rs →
      (execWithRetriesLoop o attempt remaining lastErr).1 = (rs, none) ∧
      (execWithRetriesLoop o attempt remaining lastErr).2.2 = m + 1 := by
  intro m
  induction m with
  | zero =>
    intro attempt remaining lastErr hm _ hok
    obtain ⟨r, rfl⟩ := Nat.exists_eq_add_of_lt hm
    simp only [Nat.add_zero] at hok
    simp [execWithRetriesLoop, hok]
  | succ m ih =>
    intro attempt remaining lastErr hm hfail hok
    obtain ⟨r, rfl⟩ := Nat.exists_eq_add_of_lt hm
    obtain ⟨⟨e, he, htr⟩, hctx, hcan⟩ := hfail 0 (Nat.succ_pos m)
    simp only [Nat.add_zero] at he hctx hcan
    have hrec := ih (attempt + 1) (m + 1 + r) (some e) (by omega)
      (fun i hi => by
        have h2 := hfail (i + 1) (by omega)
        rwa [show attempt + (i + 1) = attempt + 1 + i by omega] at h2)
      (by rwa [show attempt + (m + 1) = attempt + 1 + m by omega] at hok)
    have hstep := execWithRetriesLoop_step o attempt (m + 1 + r) lastErr e he htr hctx hcan
    refine ⟨?_, ?_⟩
    · rw [hstep]; exact hrec.1
    · rw [hstep]
      show (execWithRetriesLoop o (attempt + 1) (m + 1 + r) (some e)).2.2 + 1 = m + 1 + 1
      rw [hrec.2]

theorem execWithRetriesLoop_calls_le (o : RetryOracle α) :
    ∀ (remaining attempt : Nat) (lastErr : Option GoError),
      (execWithRetriesLoop o attempt remaining lastErr).2.2 ≤ remaining := by
  intro remaining
  induction remaining with
  | zero => intro attempt lastErr; simp [execWithRetriesLoop]
  | succ r ih =>
    intro attempt lastErr
    unfold execWithRetriesLoop
    cases h : o.exec attempt with
    | ok rs => simp
    | error e =>
      cases hc : o.ctxErrAfter attempt with
      | some ce => simp
      | none =>
        by_cases htr : looksTransient e
        · cases hcan : o.cancelDuringSleep attempt with
          | some ce => simp [htr]
          | none =>
            simp only [htr, if_true]
            have := ih (attempt + 1) (some e)
            omega
        · simp [htr]

theorem execWithRetriesLoop_exhausts (o : RetryOracle α) (errf : Nat → GoError) :
    ∀ (r attempt : Nat) (lastErr : Option GoError),
      (∀ i, i ≤ r →
          o.exec (attempt + i) = .error (errf (attempt + i)) ∧
          looksTransient (errf (attempt + i)) = true ∧
          o.ctxErrAfter (attempt + i) = none ∧
          o.cancelDuringSleep (attempt + i) = none) →
      (execWithRetriesLoop o attempt (r + 1) lastErr).1 =
        (⟨[], []⟩, some (errf (attempt + r))) := by
  intro r
  induction r with
  | zero =>
    intro attempt lastErr hf
    obtain ⟨he, htr, hctx, hcan⟩ := hf 0 (Nat.le_refl 0)
    simp only [Nat.add_zero] at he htr hctx hcan ⊢
    rw [execWithRetriesLoop_step o attempt 0 lastErr _ he htr hctx hcan]
    simp [execWithRetriesLoop]
  | succ r ih =>
    intro attempt lastErr hf
    obtain ⟨he, htr, hctx, hcan⟩ := hf 0 (Nat.zero_le _)
    simp only [Nat.add_zero] at he htr hctx hcan
    rw [execWithRetriesLoop_step o attempt (r + 1) lastErr _ he htr hctx hcan]
    have hrec := ih (attempt + 1) (some (errf attempt)) (fun i hi => by
      have h2 := hf (i + 1) (by omega)
      rwa [show attempt + (i + 1) = attempt + 1 + i by omega] at h2)
    show (execWithRetriesLoop o (attempt + 1) (r + 1) (some (errf attempt))).1 = _
    rw [hrec, show attempt + 1 + r = attempt + (r + 1) by omega]

/-- Claim C2: The retry policy of `execWithRetries`: (1) a job whose execution
fails with a transient error exactly `k ≤ retries` times (with no
cancellation) and then succeeds yields the successful result set with nil
error, after exactly `k + 1` executions; (2) for every oracle, at most
`retries + 1` executions are performed (at most `retries` extra attempts);
(3) if every attempt `0 .. retries` fails transiently (no cancellation), the
error observed on the last attempt is returned. -/
theorem execWithRetries_retry_policy (α : Type) (retries : Nat) :
    (∀ (o : RetryOracle α) (k : Nat) (rs : ResultSet α),
        k ≤ retries →
        (∀ i, i < k → cleanTransientFail o i) →
        o.exec k = .ok rs →
        (execWithRetries o retries).1 = (rs, none) ∧
        (execWithRetries o retries).2.2 = k + 1) ∧
    (∀ o : RetryOracle α, (execWithRetries o retries).2.2 ≤ retries + 1) ∧
    (∀ (o : RetryOracle α) (errf : Nat → GoError),
        (∀ i, i ≤ retries →
            o.exec i = .error (errf i) ∧ looksTransient (errf i) = true ∧
            o.ctxErrAfter i = none ∧ o.cancelDuringSleep i = none) →
        (execWithRetries o retries).1 = (⟨[], []⟩, some (errf retries))) := by
  refine ⟨?_, ?_, ?_⟩
  · intro o k rs hk hfail hok
    exact execWithRetriesLoop_succeeds o rs k 0 (retries + 1) none (by omega)
      (fun i hi => by simpa using hfail i hi) (by simpa using hok)
  · intro o
    exact execWithRetriesLoop_calls_le o (retries + 1) 0 none
  · intro o errf hf
    have h := execWithRetriesLoop_exhausts o errf retries 0 none
      (fun i hi => by simpa using hf i hi)
    simpa [execWithRetries] using h

theorem execWithRetries_retry_policy_witness :
    (execWithRetries retryWitOracle 1).1 = ({ columns := ["c"], rows := [[5]] }, none) ∧
    (execWithRetries retryWitOracle 1).2.2 = 2 := by
  have h := (execWithRetries_retry_policy Nat 1).1 retryWitOracle 1 ⟨["c"], [[5]]⟩
    (Nat.le_refl 1)
    (fun i hi => by
      interval_cases i
      exact ⟨⟨⟨none, "write: broken pipe"⟩, rfl, by decide⟩, rfl, rfl⟩)
    rfl
  exact h

/-- Claim C7: A first attempt failing with a non-transient error while the
cancellation context has not expired is returned immediately: exactly one
execution, no backoff sleep, the error itself as the result, for every
`retries ≥ 0`. -/
theorem execWithRetries_nonTransient_immediate (o : RetryOracle α) (retries : Nat)
    (e : GoError) (h0 : o.exec 0 = .error e) (ht : looksTransient e = false)
    (hctx : o.ctxErrAfter 0 = none) :
    execWithRetries o retries = ((⟨[], []⟩, some e), [], 1) := by
  unfold execWithRetries execWithRetriesLoop
  simp [h0, hctx, ht]

theorem execWithRetries_nonTransient_immediate_witness :
    execWithRetries permErrOracle 3 =
      ((⟨[], []⟩, some ⟨some "ClientError", "syntax error"⟩), [], 1) :=
  execWithRetries_nonTransient_immediate permErrOracle 3 _ rfl (by decide) rfl

theorem execWithRetriesLoop_sleeps_char (o : RetryOracle α) :
    ∀ (remaining attempt : Nat) (lastErr : Option GoError),
      ∃ k, (execWithRetriesLoop o attempt remaining lastErr).2.1 =
        (List.range k).map (fun j => 200 * (attempt + j + 1)) := by
  intro remaining
  induction remaining with
  | zero => intro attempt lastErr; exact ⟨0, by simp [execWithRetriesLoop]⟩
  | succ r ih =>
    intro attempt lastErr
    unfold execWithRetriesLoop
    cases he : o.exec attempt with
    | ok rs => exact ⟨0, by simp⟩
    | error e =>
      cases hc : o.ctxErrAfter attempt with
      | some ce => exact ⟨0, by simp⟩
      | none =>
        by_cases htr : looksTransient e
        · cases hcan : o.cancelDuringSleep attempt with
          | some ce => exact ⟨0, by simp [htr]⟩
          | none =>
            simp only [htr, if_true]
            obtain ⟨k, hk⟩ := ih (attempt + 1) (some e)
            refine ⟨k + 1, ?_⟩
            show 200 * (attempt + 1) ::
                (execWithRetriesLoop o (attempt + 1) r (some e)).2.1 = _
            rw [hk, List.range_succ_eq_map, List.map_cons, List.map_map]
            refine congrArg₂ List.cons (by norm_num) ?_
            refine List.map_congr_left (fun j _ => ?_)
            simp [Function.comp]
            ring
        · exact ⟨0, by simp [htr]⟩

/-- Claim C8: Backoff shape of `execWithRetries`: (1) the `i`-th completed
backoff sleep of a run lasts `200·(i+1)` ms (200ms after attempt 1, 400ms
after attempt 2, …); (2) if the cancellation signal fires during the sleep
following a failed transient attempt, the loop immediately returns the
cancellation error `ctx.Err()` — not the backend error — with no further
execution. -/
theorem execWithRetries_backoff (α : Type) (retries : Nat) :
    (∀ (o : RetryOracle α) (i : Nat)
        (h : i < (execWithRetries o retries).2.1.length),
        (execWithRetries o retries).2.1.get ⟨i, h⟩ = 200 * (i + 1)) ∧
    (∀ (o : RetryOracle α) (n r : Nat) (lastErr : Option GoError) (e ce : GoError),
        o.exec n = .error e → looksTransient e = true →
        o.ctxErrAfter n = none → o.cancelDuringSleep n = some ce →
        execWithRetriesLoop o n (r + 1) lastErr = ((⟨[], []⟩, some ce), [], 1)) := by
  refine ⟨?_, ?_⟩
  · intro o i h
    obtain ⟨k, hk⟩ := execWithRetriesLoop_sleeps_char o (retries + 1) 0 none
    have hk2 : (execWithRetries o retries).2.1 =
        (List.range k).map (fun j => 200 * (j + 1)) := by
      simpa [execWithRetries] using hk
    have hik : i < k := by
      have hlen := h
      rw [hk2] at hlen
      simpa using hlen
    rw [List.get_eq_getElem]
    simp only [hk2, List.getElem_map, List.getElem_range]
  · intro o n r lastErr e ce he htr hctx hcan
    unfold execWithRetriesLoop
    simp [he, hctx, htr, hcan]

theorem execWithRetries_backoff_witness :
    (execWithRetries cancelWitOracle 5).2.1.get
        ⟨1, by simp [execWithRetries, execWithRetriesLoop, cancelWitOracle]; decide⟩ = 400 ∧
    execWithRetriesLoop cancelWitOracle 2 (3 + 1) (some ⟨none, "dial: connection refused"⟩) =
      ((⟨[], []⟩, some ⟨none, "context deadline exceeded"⟩), [], 1) := by
  constructor
  · have h := (execWithRetries_backoff Nat 5).1 cancelWitOracle 1
      (by simp [execWithRetries, execWithRetriesLoop, cancelWitOracle]; decide)
    simpa using h
  · exact (execWithRetries_backoff Nat 5).2 cancelWitOracle 2 3 _ _ _
      rfl (by decide) rfl rfl

theorem collectRows_length_le (limit : Int) (hl : limit > 0) :
    ∀ (records : List (NeoRec α)) (cols : Option (List String)) (rows : List (List α)),
      (rows.length : Int) < limit →
      (((collectRows limit records cols rows).2.length : Int)) ≤ limit := by
  intro records
  induction records with
  | nil => intro cols rows hr; simpa [collectRows] using le_of_lt hr
  | cons r rest ih =>
    intro cols rows hr
    unfold collectRows
    by_cases hstop : limit > 0 ∧ ((rows ++ [r.keys.map r.get]).length : Int) ≥ limit
    · rw [if_pos hstop]
      show ((rows ++ [r.keys.map r.get]).length : Int) ≤ limit
      simp only [List.length_append, List.length_cons, List.length_nil]
      push_cast
      omega
    · rw [if_neg hstop]
      refine ih _ _ ?_
      rcases not_and_or.mp hstop with h | h
      · exact absurd hl h
      · simp only [List.length_append, List.length_cons, List.length_nil] at h
        push_cast at h ⊢
        omega

theorem collectRows_no_limit (limit : Int) (hl : limit ≤ 0) :
    ∀ (records : List (NeoRec α)) (cols : Option (List String)) (rows : List (List α)),
      (collectRows limit records cols rows).2 =
        rows ++ records.map (fun r => r.keys.map r.get) := by
  intro records
  induction records with
  | nil => intro cols rows; simp [collectRows]
  | cons r rest ih =>
    intro cols rows
    unfold collectRows
    have hstop : ¬(limit > 0 ∧ ((rows ++ [r.keys.map r.get]).length : Int) ≥ limit) := by
      intro h; omega
    simp only [hstop, if_false]
    rw [ih]
    simp

/-- Claim C10: Row-cap behaviour of `ExecCypher`: (1) for `limit > 0` the
returned row list has length at most `limit` — the collection loop stops at
`limit` rows for every record stream and query text, in particular also when
the text already contains "limit" so that no `LIMIT n` clause was appended;
(2) a text whose lower-cased trim contains "limit" is sent as the trimmed
text with nothing appended; (3) for `limit ≤ 0` no truncation occurs and the
query is sent as the trimmed input, unmodified by any `LIMIT` clause. -/
theorem execCypher_row_cap (α : Type) (limit : Int) (records : List (NeoRec α))
    (cypher : String) :
    (limit > 0 → ((execCypherResult limit records : ResultSet α).rows.length : Int) ≤ limit) ∧
    (strContains (lowerStr (trimSpace cypher)) "limit" = true →
      execCypherQuery limit cypher = trimSpace cypher) ∧
    (limit ≤ 0 →
      (execCypherResult limit records : ResultSet α).rows =
          records.map (fun r => r.keys.map r.get) ∧
        execCypherQuery limit cypher = trimSpace cypher) := by
  refine ⟨?_, ?_, ?_⟩
  · intro hl
    exact collectRows_length_le limit hl records none [] (by simpa using hl)
  · intro hcontains
    unfold execCypherQuery
    simp [hcontains]
  · intro hl
    refine ⟨?_, ?_⟩
    · simpa [execCypherResult] using collectRows_no_limit limit hl records none []
    · unfold execCypherQuery
      have : ¬limit > 0 := by omega
      simp [this]

theorem execCypher_row_cap_witness :
    (1 : Int) > 0 ∧
    ((execCypherResult 1 [witRecA, witRecB] : ResultSet Nat).rows.length : Int) ≤ 1 ∧
    strContains (lowerStr (trimSpace "RETURN 1 LIMIT 2")) "limit" = true ∧
    execCypherQuery 1 "RETURN 1 LIMIT 2" = "RETURN 1 LIMIT 2" := by
  refine ⟨by decide, ?_, by decide, ?_⟩
  · exact (execCypher_row_cap Nat 1 [witRecA, witRecB] "RETURN 1 LIMIT 2").1 (by decide)
  · exact (execCypher_row_cap Nat 1 [witRecA, witRecB] "RETURN 1 LIMIT 2").2.1 (by decide)

example : reLabelTokens "MATCH (u:User)-[:MemberOf]->(g:Group)".data =
    ["User", "MemberOf", "Group"] := by decide

example : reRelTokens "MATCH (u:User)-[:MemberOf]->(g:Group)".data =
    ["MemberOf"] := by decide

example : reLabelTokens "a::b c:".data = ["b"] := by decide

example : reRelTokens "[[:A] [:]".data = ["A"] := by decide

example : CanRunCypher "MATCH (u:User) RETURN u" ⟨["user"], []⟩ = (true, "") := by decide

example : CanRunCypher "MATCH (u:User) RETURN u" ⟨[], []⟩ =
    (false, "missing label: User") := by decide

theorem isWordChar_ne_colon {c : Char} (h : isWordChar c = true) : ¬(c = ':') := by
  intro hc; subst hc; simp [isWordChar] at h

theorem isWordChar_ne_lbracket {c : Char} (h : isWordChar c = true) : ¬(c = '[') := by
  intro hc; subst hc; simp [isWordChar] at h

/-- Every token the `reLabel` scanner emits from plain state is also emitted
when the scan starts in the middle of an identifier. -/
theorem reLabelScan_none_le_some :
    ∀ (s : List Char) (acc : List Char) (t : String),
      t ∈ reLabelScan s none → t ∈ reLabelScan s (some acc) := by
  intro s
  induction s with
  | nil => intro acc t ht; simp [reLabelScan] at ht
  | cons c rest ih =>
    intro acc t ht
    by_cases hw : isWordChar c
    · have hc := isWordChar_ne_colon hw
      rw [reLabelScan] at ht
      rw [if_neg hc] at ht
      rw [reLabelScan, if_pos hw]
      exact ih _ t ht
    · by_cases hc : c = ':'
      · rw [reLabelScan, if_pos hc] at ht
        rw [reLabelScan, if_neg hw, if_pos hc]
        exact List.mem_append_right _ ht
      · rw [reLabelScan, if_neg hc] at ht
        rw [reLabelScan, if_neg hw, if_neg hc]
        exact List.mem_append_right _ ht

theorem reRelScan_subset_reLabelScan :
    ∀ (s : List Char) (st : RelScanState) (t : String),
      t ∈ reRelScan s st → t ∈ reLabelScan s (relStateMap st) := by
  intro s
  induction s with
  | nil =>
    intro st t ht
    cases st with
    | plain => simp [reRelScan] at ht
    | bracket => simp [reRelScan] at ht
    | word acc => exact ht
  | cons c rest ih =>
    intro st t ht
    cases st with
    | plain =>
      by_cases hb : c = '['
      · rw [reRelScan, if_pos hb] at ht
        have hc : ¬(c = ':') := by subst hb; decide
        rw [relStateMap, reLabelScan, if_neg hc]
        exact ih .bracket t ht
      · rw [reRelScan, if_neg hb] at ht
        by_cases hc : c = ':'
        · rw [relStateMap, reLabelScan, if_pos hc]
          exact reLabelScan_none_le_some rest [] t (ih .plain t ht)
        · rw [relStateMap, reLabelScan, if_neg hc]
          exact ih .plain t ht
    | bracket =>
      by_cases hc : c = ':'
      · rw [reRelScan, if_pos hc] at ht
        rw [relStateMap, reLabelScan, if_pos hc]
        exact ih (.word []) t ht
      · rw [reRelScan, if_neg hc] at ht
        rw [relStateMap, reLabelScan, if_neg hc]
        by_cases hb : c = '['
        · rw [if_pos hb] at ht
          exact ih .bracket t ht
        · rw [if_neg hb] at ht
          exact ih .plain t ht
    | word acc =>
      by_cases hw : isWordChar c
      · rw [reRelScan, if_pos hw] at ht
        rw [relStateMap, reLabelScan, if_pos hw]
        exact ih (.word (acc ++ [c])) t ht
      · rw [reRelScan, if_neg hw] at ht
        rw [relStateMap, reLabelScan, if_neg hw]
        rcases List.mem_append.mp ht with hemit | htail
        · exact List.mem_append_left _ hemit
        · refine List.mem_append_right _ ?_
          by_cases hb : c = '['
          · have hc : ¬(c = ':') := by subst hb; decide
            rw [if_pos hb] at htail
            rw [if_neg hc]
            exact ih .bracket t htail
          · rw [if_neg hb] at htail
            by_cases hc : c = ':'
            · rw [if_pos hc]
              exact reLabelScan_none_le_some rest [] t (ih .plain t htail)
            · rw [if_neg hc]
              exact ih .plain t htail

theorem mem_emit_ne_nil {acc : List Char} {t : String}
    (ht : t ∈ (if acc.isEmpty then ([] : List String) else [String.mk acc])) :
    t.data ≠ [] := by
  by_cases h : acc.isEmpty
  · rw [if_pos h] at ht; simp at ht
  · rw [if_neg h] at ht
    simp only [List.mem_singleton] at ht
    subst ht
    show acc ≠ []
    simpa using h

/-- Every identifier captured by the `reLabel` scanner is non-empty. -/
theorem reLabelScan_ne_empty :
    ∀ (s : List Char) (o : Option (List Char)) (t : String),
      t ∈ reLabelScan s o → t.data ≠ [] := by
  intro s
  induction s with
  | nil =>
    intro o t ht
    cases o with
    | none => simp [reLabelScan] at ht
    | some acc => exact mem_emit_ne_nil ht
  | cons c rest ih =>
    intro o t ht
    cases o with
    | none =>
      rw [reLabelScan] at ht
      by_cases hc : c = ':'
      · rw [if_pos hc] at ht; exact ih _ t ht
      · rw [if_neg hc] at ht; exact ih _ t ht
    | some acc =>
      rw [reLabelScan] at ht
      by_cases hw : isWordChar c
      · rw [if_pos hw] at ht; exact ih _ t ht
      · rw [if_neg hw] at ht
        rcases List.mem_append.mp ht with hemit | htail
        · exact mem_emit_ne_nil hemit
        · by_cases hc : c = ':'
          · rw [if_pos hc] at htail; exact ih _ t htail
          · rw [if_neg hc] at htail; exact ih _ t htail

/-- Every identifier captured by the `reRel` scanner is non-empty. -/
theorem reRelScan_ne_empty :
    ∀ (s : List Char) (st : RelScanState) (t : String),
      t ∈ reRelScan s st → t.data ≠ [] := by
  intro s
  induction s with
  | nil =>
    intro st t ht
    cases st with
    | plain => simp [reRelScan] at ht
    | bracket => simp [reRelScan] at ht
    | word acc => exact mem_emit_ne_nil ht
  | cons c rest ih =>
    intro st t ht
    cases st with
    | plain =>
      rw [reRelScan] at ht
      by_cases hb : c = '['
      · rw [if_pos hb] at ht; exact ih _ t ht
      · rw [if_neg hb] at ht; exact ih _ t ht
    | bracket =>
      rw [reRelScan] at ht
      by_cases hc : c = ':'
      · rw [if_pos hc] at ht; exact ih _ t ht
      · rw [if_neg hc] at ht
        by_cases hb : c = '['
        · rw [if_pos hb] at ht; exact ih _ t ht
        · rw [if_neg hb] at ht; exact ih _ t ht
    | word acc =>
      rw [reRelScan] at ht
      by_cases hw : isWordChar c
      · rw [if_pos hw] at ht; exact ih _ t ht
      · rw [if_neg hw] at ht
        rcases List.mem_append.mp ht with hemit | htail
        · exact mem_emit_ne_nil hemit
        · by_cases hb : c = '['
          · rw [if_pos hb] at htail; exact ih _ t htail
          · rw [if_neg hb] at htail; exact ih _ t htail

theorem lowerStr_beq_empty {t : String} (h : t.data ≠ []) :
    (lowerStr t == "") = false := by
  rw [beq_eq_false_iff_ne]
  intro he
  apply h
  have hd : (lowerStr t).data = [] := by rw [he]
  simpa [lowerStr] using hd

theorem find?_eq_head_filter (p : α → Bool) :
    ∀ l : List α, l.find? p = (l.filter p).head? := by
  intro l
  induction l with
  | nil => rfl
  | cons a l ih =>
    by_cases h : p a = true
    · rw [List.find?_cons_of_pos _ h, List.filter_cons_of_pos h]; rfl
    · rw [List.find?_cons_of_neg _ h, List.filter_cons_of_neg h]; exact ih

theorem find?_congr_on (p q : α → Bool) :
    ∀ l : List α, (∀ x ∈ l, p x = q x) → l.find? p = l.find? q := by
  intro l
  induction l with
  | nil => intro _; rfl
  | cons a l ih =>
    intro hpq
    have ha := hpq a (List.mem_cons_self a l)
    by_cases h : p a = true
    · have hq : q a = true := ha ▸ h
      rw [List.find?_cons_of_pos _ h, List.find?_cons_of_pos _ hq]
    · have hq : ¬q a = true := ha ▸ h
      rw [List.find?_cons_of_neg _ h, List.find?_cons_of_neg _ hq]
      exact ih (fun x hx => hpq x (List.mem_cons_of_mem a hx))

/-- On a token list with no empty tokens, `firstMissing` is the head of the
missing-token sublist, in scan order. -/
theorem firstMissing_eq (tokens present : List String)
    (hne : ∀ t ∈ tokens, t.data ≠ []) :
    firstMissing tokens present =
      (tokens.filter (fun t => !present.contains (lowerStr t))).head? := by
  unfold firstMissing
  rw [find?_congr_on _ (fun t => !present.contains (lowerStr t)) tokens
    (fun x hx => by rw [lowerStr_beq_empty (hne x hx)]; simp)]
  exact find?_eq_head_filter _ tokens

/-- Claim C6 counterexample:  In
`"MATCH ()-[:KNOWS]->() MATCH (p:Person)"` with presence
`labels = {knows}`, `rels = ∅`, the first unresolvable token in source-text
order is the relationship-type reference `KNOWS` (it precedes `Person` in
the text and `knows ∉ rels`), so the claim requires the reason
`"missing relationship type: KNOWS"`.  The code scans *all* label tokens
before any relationship token and returns `"missing label: Person"`. -/
theorem CanRunCypher_order_counterexample :
    CanRunCypher "MATCH ()-[:KNOWS]->() MATCH (p:Person)" ⟨["knows"], []⟩ =
      (false, "missing label: Person") ∧
    reRelTokens "MATCH ()-[:KNOWS]->() MATCH (p:Person)".data = ["KNOWS"] ∧
    (Presence.mk ["knows"] []).rels.contains "knows" = false := by decide

/-- Claim C6 amended:  `CanRunCypher` scans all label tokens (every
`:identifier` capture) in source order first, then all relationship tokens
(`[:identifier` captures) in source order: the reported token is the first
missing *label* token in text order; only when every label token resolves is
it the first missing *relationship* token in text order; when all tokens
resolve the result is runnable with empty reason.  (The model is pure, so
`presence` is trivially not mutated.) -/
theorem CanRunCypher_scan_order (cypher : String) (p : Presence) :
    ((reLabelTokens cypher.data).filter
        (fun t => !p.labels.contains (lowerStr t)) = [] →
      (reRelTokens cypher.data).filter
        (fun t => !p.rels.contains (lowerStr t)) = [] →
      CanRunCypher cypher p = (true, "")) ∧
    (∀ t ts, (reLabelTokens cypher.data).filter
        (fun t => !p.labels.contains (lowerStr t)) = t :: ts →
      CanRunCypher cypher p = (false, "missing label: " ++ t)) ∧
    ((reLabelTokens cypher.data).filter
        (fun t => !p.labels.contains (lowerStr t)) = [] →
      ∀ t ts, (reRelTokens cypher.data).filter
        (fun t => !p.rels.contains (lowerStr t)) = t :: ts →
      CanRunCypher cypher p = (false, "missing relationship type: " ++ t)) := by
  have hL := firstMissing_eq (reLabelTokens cypher.data) p.labels
    (fun t ht => reLabelScan_ne_empty _ _ t ht)
  have hR := firstMissing_eq (reRelTokens cypher.data) p.rels
    (fun t ht => reRelScan_ne_empty _ _ t ht)
  refine ⟨?_, ?_, ?_⟩
  · intro hfl hfr
    unfold CanRunCypher
    rw [hL, hfl, hR, hfr]
    rfl
  · intro t ts hft
    unfold CanRunCypher
    rw [hL, hft]
    rfl
  · intro hfl t ts hft
    unfold CanRunCypher
    rw [hL, hfl, hR, hft]
    rfl

theorem CanRunCypher_scan_order_witness :
    CanRunCypher "MATCH (x:Foo)" ⟨[], []⟩ = (false, "missing label: Foo") :=
  (CanRunCypher_scan_order "MATCH (x:Foo)" ⟨[], []⟩).2.1 "Foo" [] (by decide)

/-- Claim C4 counterexample:  The query references the relationship type
`MemberOf` only via `[:MemberOf`, and `memberof` is present in
`presence.relationTypes` (and absent from `presence.labels`).  The claim
says `CanRunCypher` does not return not-runnable with reason
`"missing label: MemberOf"` — but it does, because the `reLabel` regex
`:([A-Za-z0-9_]+)` also matches inside `[:MemberOf` and labels are checked
first. -/
theorem CanRunCypher_relAsLabel_counterexample :
    CanRunCypher "MATCH (n)-[:MemberOf]->(m) RETURN n" ⟨[], ["memberof"]⟩ =
      (false, "missing label: MemberOf") := by decide

/-- Claim C4 amended:  The label scan has no node-pattern-position
restriction: every identifier captured by `reRel` (a `[:identifier`
relationship reference) is also captured by `reLabel` and hence checked
against `presence.labels`; consequently a runnable verdict requires every
relationship-type token to be present among the *labels* as well, and a
query referencing `R` only via `[:R` with `R` in `relationTypes` but not in
`labels` is rejected as `missing label: R`. -/
theorem reRel_tokens_also_label_checked :
    (∀ (s : List Char) (t : String), t ∈ reRelTokens s → t ∈ reLabelTokens s) ∧
    (∀ (cypher : String) (p : Presence), (CanRunCypher cypher p).1 = true →
      ∀ t ∈ reRelTokens cypher.data, p.labels.contains (lowerStr t) = true) := by
  constructor
  · intro s t ht
    exact reRelScan_subset_reLabelScan s .plain t ht
  · intro cypher p hrun t ht
    have htl : t ∈ reLabelTokens cypher.data :=
      reRelScan_subset_reLabelScan cypher.data .plain t ht
    cases hm : firstMissing (reLabelTokens cypher.data) p.labels with
    | some u =>
      unfold CanRunCypher at hrun
      rw [hm] at hrun
      simp at hrun
    | none =>
      rw [firstMissing_eq (reLabelTokens cypher.data) p.labels
        (fun x hx => reLabelScan_ne_empty cypher.data none x hx)] at hm
      have hfil : (reLabelTokens cypher.data).filter
          (fun t => !p.labels.contains (lowerStr t)) = [] := by
        cases hc : (reLabelTokens cypher.data).filter
            (fun t => !p.labels.contains (lowerStr t)) with
        | nil => rfl
        | cons a l => rw [hc] at hm; simp at hm
      have hall := List.filter_eq_nil_iff.mp hfil t htl
      simpa using hall

theorem reRel_tokens_also_label_checked_witness :
    ("B" ∈ reRelTokens "(a:A)-[:B]->(c)".data) ∧
    ("B" ∈ reLabelTokens "(a:A)-[:B]->(c)".data) ∧
    (CanRunCypher "MATCH ()-[:B]->()" ⟨["b"], ["b"]⟩).1 = true ∧
    (Presence.mk ["b"] ["b"]).labels.contains (lowerStr "B") = true := by
  refine ⟨by decide, ?_, by decide, ?_⟩
  · exact reRel_tokens_also_label_checked.1 "(a:A)-[:B]->(c)".data "B" (by decide)
  · exact reRel_tokens_also_label_checked.2 "MATCH ()-[:B]->()" ⟨["b"], ["b"]⟩
      (by decide) "B" (by decide)

/-- Members of the dispatched prefix and of the pending suffix have distinct
indices (from the global index `Nodup`). -/
theorem index_ne_of_take_drop {jobs : List QueryJob} {k : Nat}
    (hNodup : (jobs.map QueryJob.index).Nodup)
    {j1 j2 : QueryJob} (h1 : j1 ∈ jobs.take k) (h2 : j2 ∈ jobs.drop k) :
    j1.index ≠ j2.index := by
  have hsplit : (jobs.take k).map QueryJob.index ++ (jobs.drop k).map QueryJob.index =
      jobs.map QueryJob.index := by
    rw [← List.map_append, List.take_append_drop]
  rw [← hsplit] at hNodup
  rcases List.nodup_append.mp hNodup with ⟨-, -, hdisj⟩
  intro heq
  exact hdisj (List.mem_map_of_mem _ h1) (heq ▸ List.mem_map_of_mem _ h2)

/-- Two dispatched jobs with the same index are the same job. -/
theorem take_index_inj {jobs : List QueryJob} {k : Nat}
    (hNodup : (jobs.map QueryJob.index).Nodup)
    {j1 j2 : QueryJob} (h1 : j1 ∈ jobs.take k) (h2 : j2 ∈ jobs.take k)
    (heq : j1.index = j2.index) : j1 = j2 :=
  List.inj_on_of_nodup_map hNodup (List.take_subset k jobs h1)
    (List.take_subset k jobs h2) heq

theorem runInv_init (α : Type) (execOut : QueryJob → ResultSet α × Option GoError)
    (jobs : List QueryJob) (opts : RunnerOpts) :
    RunInv execOut jobs 0 (initRun α jobs opts) := by
  refine ⟨Nat.zero_le _, ?_, ?_, ?_, ?_, ?_, ?_⟩
  · exact List.length_replicate _ _
  · exact (List.drop_zero jobs).symm
  · intro w j h
    simp only [initRun] at h
    rw [List.getElem?_replicate] at h
    split at h <;> simp at h
  · intro w1 w2 j1 j2 h1 h2 _
    simp only [initRun] at h1
    rw [List.getElem?_replicate] at h1
    split at h1 <;> simp at h1
  · intro i hi
    left
    simp only [initRun]
    rw [List.getElem?_replicate, if_pos hi]
  · intro j hj
    simp at hj

theorem runStep_preserves {α : Type} {execOut : QueryJob → ResultSet α × Option GoError}
    {ff : Bool} {jobs : List QueryJob}
    (hIdx : ∀ j ∈ jobs, j.index < jobs.length)
    (hNodup : (jobs.map QueryJob.index).Nodup)
    {k : Nat} {s s2 : RunState α} {a : RunAction}
    (hstep : runStep execOut ff s a = some s2)
    (hinv : RunInv execOut jobs k s) :
    ∃ k2, RunInv execOut jobs k2 s2 := by
  cases a with
  | dispatch w =>
    simp only [runStep] at hstep
    cases hw : s.workers[w]? with
    | none => rw [hw] at hstep; exact absurd hstep (by simp)
    | some ws =>
      rw [hw] at hstep
      cases ws with
      | busy j => exact absurd hstep (by simp)
      | exited => exact absurd hstep (by simp)
      | idle =>
        cases hp : s.pending with
        | nil => rw [hp] at hstep; exact absurd hstep (by simp)
        | cons j rest =>
          rw [hp] at hstep
          dsimp only [] at hstep
          by_cases hpd : s.producerDone
          · rw [if_pos hpd] at hstep; exact absurd hstep (by simp)
          · rw [if_neg hpd] at hstep
            cases hstep
            have hdrop : jobs.drop k = j :: rest := hinv.pending_eq ▸ hp
            have hklt : k < jobs.length := by
              by_contra hge
              rw [List.drop_eq_nil_of_le (by omega)] at hdrop
              exact List.noConfusion hdrop
            have hget : jobs[k]? = some j := by
              have h0 : (jobs.drop k)[0]? = some j := by rw [hdrop]; simp
              rw [List.getElem?_drop] at h0
              simpa using h0
            have hrest : rest = jobs.drop (k + 1) := by
              have : (jobs.drop k).drop 1 = jobs.drop (k + 1) := List.drop_drop 1 k jobs
              rw [hdrop] at this
              simpa using this
            have htake : jobs.take (k + 1) = jobs.take k ++ [j] := by
              rw [List.take_succ, hget]
              rfl
            have hjdrop : j ∈ jobs.drop k := by rw [hdrop]; exact List.mem_cons_self j rest
            have hidxne : ∀ j2 ∈ jobs.take k, j2.index ≠ j.index :=
              fun j2 hj2 => index_ne_of_take_drop hNodup hj2 hjdrop
            have hwlt : w < s.workers.length := (List.getElem?_eq_some.mp hw).1
            refine ⟨k + 1, ?_, ?_, ?_, ?_, ?_, ?_, ?_⟩
            · omega
            · exact hinv.out_len
            · exact hrest
            · intro w2 j2 h2
              by_cases hww : w = w2
              · subst hww
                rw [List.getElem?_set_self hwlt] at h2
                cases h2
                rw [htake]
                exact List.mem_append_right _ (List.mem_singleton_self j)
              · rw [List.getElem?_set_ne hww] at h2
                rw [htake]
                exact List.mem_append_left _ (hinv.busy_mem w2 j2 h2)
            · intro w1 w2 j1 j2 h1 h2 hidx
              by_cases hw1 : w = w1 <;> by_cases hw2 : w = w2
              · omega
              · subst hw1
                rw [List.getElem?_set_self hwlt] at h1
                rw [List.getElem?_set_ne hw2] at h2
                cases h1
                exact absurd hidx.symm (hidxne j2 (hinv.busy_mem w2 j2 h2))
              · subst hw2
                rw [List.getElem?_set_self hwlt] at h2
                rw [List.getElem?_set_ne hw1] at h1
                cases h2
                exact absurd hidx (hidxne j1 (hinv.busy_mem w1 j1 h1))
              · rw [List.getElem?_set_ne hw1] at h1
                rw [List.getElem?_set_ne hw2] at h2
                exact hinv.busy_uniq w1 w2 j1 j2 h1 h2 hidx
            · intro i hi
              rcases hinv.out_char i hi with hzero | ⟨j2, hj2, hj2i, hout, hnob⟩
              · exact Or.inl hzero
              · refine Or.inr ⟨j2, ?_, hj2i, hout, ?_⟩
                · rw [htake]; exact List.mem_append_left _ hj2
                · intro w2
                  by_cases hww : w = w2
                  · subst hww
                    rw [List.getElem?_set_self hwlt]
                    intro hcon
                    cases hcon
                    exact hidxne _ hj2 rfl
                  · rw [List.getElem?_set_ne hww]
                    exact hnob w2
            · intro j2 hj2
              rw [htake] at hj2
              rcases List.mem_append.mp hj2 with hold | hnew
              · rcases hinv.disp_acct j2 hold with ⟨w2, hw2⟩ | hout
                · have hww : w ≠ w2 := by
                    intro hcon
                    subst hcon
                    rw [hw] at hw2
                    exact WorkerState.noConfusion (Option.some.inj hw2)
                  exact Or.inl ⟨w2, by rw [List.getElem?_set_ne hww]; exact hw2⟩
                · exact Or.inr hout
              · rw [List.mem_singleton.mp hnew]
                exact Or.inl ⟨w, by rw [List.getElem?_set_self hwlt]⟩
  | finish w =>
    simp only [runStep] at hstep
    cases hw : s.workers[w]? with
    | none => rw [hw] at hstep; exact absurd hstep (by simp)
    | some ws =>
      rw [hw] at hstep
      cases ws with
      | idle => exact absurd hstep (by simp)
      | exited => exact absurd hstep (by simp)
      | busy j =>
        dsimp only [] at hstep
        cases hstep
        have hwlt : w < s.workers.length := (List.getElem?_eq_some.mp hw).1
        have hjtake : j ∈ jobs.take k := hinv.busy_mem w j hw
        have hjlt : j.index < jobs.length := hIdx j (List.take_subset k jobs hjtake)
        have hjout : j.index < s.out.length := hinv.out_len ▸ hjlt
        refine ⟨k, hinv.k_le, ?_, hinv.pending_eq, ?_, ?_, ?_, ?_⟩
        · rw [List.length_set]; exact hinv.out_len
        · intro w2 j2 h2
          by_cases hww : w = w2
          · subst hww
            rw [List.getElem?_set_self hwlt] at h2
            exact absurd (Option.some.inj h2) (by simp)
          · rw [List.getElem?_set_ne hww] at h2
            exact hinv.busy_mem w2 j2 h2
        · intro w1 w2 j1 j2 h1 h2 hidx
          by_cases hw1 : w = w1
          · subst hw1
            rw [List.getElem?_set_self hwlt] at h1
            exact absurd (Option.some.inj h1) (by simp)
          · by_cases hw2 : w = w2
            · subst hw2
              rw [List.getElem?_set_self hwlt] at h2
              exact absurd (Option.some.inj h2) (by simp)
            · rw [List.getElem?_set_ne hw1] at h1
              rw [List.getElem?_set_ne hw2] at h2
              exact hinv.busy_uniq w1 w2 j1 j2 h1 h2 hidx
        · intro i hi
          by_cases hij : j.index = i
          · subst hij
            refine Or.inr ⟨j, hjtake, rfl, ?_, ?_⟩
            · exact List.getElem?_set_self hjout
            · intro w2
              by_cases hww : w = w2
              · subst hww
                rw [List.getElem?_set_self hwlt]
                simp
              · rw [List.getElem?_set_ne hww]
                intro hcon
                exact hww (hinv.busy_uniq w2 w j j hcon hw rfl).symm
          · rcases hinv.out_char i hi with hzero | ⟨j2, hj2, hj2i, hout, hnob⟩
            · left
              rw [List.getElem?_set_ne hij]
              exact hzero
            · refine Or.inr ⟨j2, hj2, hj2i, ?_, ?_⟩
              · rw [List.getElem?_set_ne hij]
                exact hout
              · intro w2
                by_cases hww : w = w2
                · subst hww
                  rw [List.getElem?_set_self hwlt]
                  simp
                · rw [List.getElem?_set_ne hww]
                  exact hnob w2
        · intro j2 hj2
          by_cases hjj : j2 = j
          · subst hjj
            exact Or.inr (List.getElem?_set_self hjout)
          · rcases hinv.disp_acct j2 hj2 with ⟨w2, hw2⟩ | hout
            · have hww : w ≠ w2 := by
                intro hcon
                subst hcon
                rw [hw] at hw2
                exact hjj (WorkerState.busy.inj (Option.some.inj hw2)).symm
              exact Or.inl ⟨w2, by rw [List.getElem?_set_ne hww]; exact hw2⟩
            · have hine : j.index ≠ j2.index := by
                intro hcon
                exact hjj (take_index_inj hNodup hj2 hjtake hcon.symm)
              right
              rw [List.getElem?_set_ne hine]
              exact hout
  | producerClose =>
    simp only [runStep] at hstep
    by_cases hcond : !s.producerDone && (s.pending.isEmpty || s.stopped)
    · rw [if_pos hcond] at hstep
      cases hstep
      exact ⟨k, hinv.k_le, hinv.out_len, hinv.pending_eq, hinv.busy_mem,
        hinv.busy_uniq, hinv.out_char, hinv.disp_acct⟩
    · rw [if_neg hcond] at hstep
      exact absurd hstep (by simp)
  | workerExit w =>
    simp only [runStep] at hstep
    cases hw : s.workers[w]? with
    | none => rw [hw] at hstep; exact absurd hstep (by simp)
    | some ws =>
      rw [hw] at hstep
      cases ws with
      | busy j => exact absurd hstep (by simp)
      | exited => exact absurd hstep (by simp)
      | idle =>
        dsimp only [] at hstep
        by_cases hcond : s.stopped || s.producerDone
        · rw [if_pos hcond] at hstep
          cases hstep
          have hwlt : w < s.workers.length := (List.getElem?_eq_some.mp hw).1
          refine ⟨k, hinv.k_le, hinv.out_len, hinv.pending_eq, ?_, ?_, ?_, ?_⟩
          · intro w2 j2 h2
            by_cases hww : w = w2
            · subst hww
              rw [List.getElem?_set_self hwlt] at h2
              exact absurd (Option.some.inj h2) (by simp)
            · rw [List.getElem?_set_ne hww] at h2
              exact hinv.busy_mem w2 j2 h2
          · intro w1 w2 j1 j2 h1 h2 hidx
            by_cases hw1 : w = w1
            · subst hw1
              rw [List.getElem?_set_self hwlt] at h1
              exact absurd (Option.some.inj h1) (by simp)
            · by_cases hw2 : w = w2
              · subst hw2
                rw [List.getElem?_set_self hwlt] at h2
                exact absurd (Option.some.inj h2) (by simp)
              · rw [List.getElem?_set_ne hw1] at h1
                rw [List.getElem?_set_ne hw2] at h2
                exact hinv.busy_uniq w1 w2 j1 j2 h1 h2 hidx
          · intro i hi
            rcases hinv.out_char i hi with hzero | ⟨j2, hj2, hj2i, hout, hnob⟩
            · exact Or.inl hzero
            · refine Or.inr ⟨j2, hj2, hj2i, hout, ?_⟩
              intro w2
              by_cases hww : w = w2
              · subst hww
                rw [List.getElem?_set_self hwlt]
                simp
              · rw [List.getElem?_set_ne hww]
                exact hnob w2
          · intro j2 hj2
            rcases hinv.disp_acct j2 hj2 with ⟨w2, hw2⟩ | hout
            · have hww : w ≠ w2 := by
                intro hcon
                subst hcon
                rw [hw] at hw2
                exact WorkerState.noConfusion (Option.some.inj hw2)
              exact Or.inl ⟨w2, by rw [List.getElem?_set_ne hww]; exact hw2⟩
            · exact Or.inr hout
        · rw [if_neg hcond] at hstep
          exact absurd hstep (by simp)

theorem runSteps_inv {α : Type} {execOut : QueryJob → ResultSet α × Option GoError}
    {ff : Bool} {jobs : List QueryJob}
    (hIdx : ∀ j ∈ jobs, j.index < jobs.length)
    (hNodup : (jobs.map QueryJob.index).Nodup) :
    ∀ (acts : List RunAction) (s : RunState α) (k : Nat) (s2 : RunState α),
      runSteps execOut ff s acts = some s2 → RunInv execOut jobs k s →
      ∃ k2, RunInv execOut jobs k2 s2 := by
  intro acts
  induction acts with
  | nil =>
    intro s k s2 hrun hinv
    cases hrun
    exact ⟨k, hinv⟩
  | cons a acts ih =>
    intro s k s2 hrun hinv
    unfold runSteps at hrun
    cases hstep : runStep execOut ff s a with
    | none => rw [hstep] at hrun; exact absurd hrun (by simp)
    | some smid =>
      rw [hstep] at hrun
      obtain ⟨k2, hinv2⟩ := runStep_preserves hIdx hNodup hstep hinv
      exact ih smid k2 s2 hrun hinv2

/-- Claim C1: Order invariant of `Run`: for every job list with dense unique
indices, every `RunnerOpts`, every per-job outcome oracle and *every
interleaving* of dispatches, completions and exits, the output slice has
length exactly `len(jobs)`; each slot `i` is still the zero value or holds
precisely the outcome of the unique job with `Index = i`; and the outcome of
every job whose execution completed (it is no longer pending nor in flight)
is stored at position `job.Index`. -/
theorem Run_order_invariant (α : Type) (execOut : QueryJob → ResultSet α × Option GoError)
    (opts : RunnerOpts) (jobs : List QueryJob)
    (hIdx : ∀ j ∈ jobs, j.index < jobs.length)
    (hNodup : (jobs.map QueryJob.index).Nodup)
    (acts : List RunAction) (s : RunState α)
    (hrun : runSteps execOut opts.failFast (initRun α jobs opts) acts = some s) :
    s.out.length = jobs.length ∧
    (∀ i, i < jobs.length →
      s.out[i]? = some (zeroResult α) ∨
      ∃ j, j ∈ jobs ∧ j.index = i ∧ s.out[i]? = some (outOf execOut j)) ∧
    (∀ j, j ∈ jobs → j ∉ s.pending →
      (∀ (w : Nat), s.workers[w]? ≠ some (WorkerState.busy j)) →
      s.out[j.index]? = some (outOf execOut j)) := by
  obtain ⟨k, hinv⟩ := runSteps_inv hIdx hNodup acts (initRun α jobs opts) 0 s hrun
    (runInv_init α execOut jobs opts)
  refine ⟨hinv.out_len, ?_, ?_⟩
  · intro i hi
    rcases hinv.out_char i hi with h | ⟨j, hjt, hji, hout, -⟩
    · exact Or.inl h
    · exact Or.inr ⟨j, List.take_subset _ _ hjt, hji, hout⟩
  · intro j hj hnp hnb
    have hjtake : j ∈ jobs.take k := by
      have hsplit := List.take_append_drop k jobs
      rw [← hsplit] at hj
      rcases List.mem_append.mp hj with h | h
      · exact h
      · exact absurd (by rw [hinv.pending_eq]; exact h) hnp
    rcases hinv.disp_acct j hjtake with ⟨w, hw⟩ | hout
    · exact absurd hw (hnb w)
    · exact hout

theorem Run_order_invariant_witness :
    (∀ j ∈ wjobs, j.index < wjobs.length) ∧
    (wjobs.map QueryJob.index).Nodup ∧
    wfinal.out.length = wjobs.length ∧
    wfinal.out[0]? = some (outOf wexec ⟨0, "a", "A", "Q0"⟩) := by
  have h := Run_order_invariant Nat wexec wopts wjobs (by decide) (by decide)
    wacts wfinal (by decide)
  refine ⟨by decide, by decide, h.1, ?_⟩
  refine h.2.2 ⟨0, "a", "A", "Q0"⟩ (by decide) (by decide) ?_
  intro w
  match w with
  | 0 => decide
  | 1 => decide
  | w + 2 =>
    rw [List.getElem?_eq_none (by simp [wfinal])]
    simp

/-- Claim C5 amended:  With fail-fast, the first error raises the stop flag,
which lets workers and the producer exit; but (1) a job never dispatched
keeps the *zero-valued* `QueryResult` in its output slot — empty result set,
no error, and in particular `Skipped = false` with empty `SkipWhy`: it is
*not* marked as a cancellation-skip; (2) jobs already in flight are never
interrupted: once `Run` returns (all workers exited), every dispatched job's
slot holds its real outcome.  (Dispatch of a queued job after the stop
signal also remains possible, because Go's `select` chooses among ready
cases arbitrarily.) -/
theorem Run_failFast_amended (α : Type) (execOut : QueryJob → ResultSet α × Option GoError)
    (opts : RunnerOpts) (jobs : List QueryJob)
    (hIdx : ∀ j ∈ jobs, j.index < jobs.length)
    (hNodup : (jobs.map QueryJob.index).Nodup)
    (acts : List RunAction) (s : RunState α)
    (hrun : runSteps execOut opts.failFast (initRun α jobs opts) acts = some s) :
    (∀ j, j ∈ s.pending → s.out[j.index]? = some (zeroResult α)) ∧
    ((zeroResult α).skipped = false ∧ (zeroResult α).err = none ∧
      (zeroResult α).skipWhy = "") ∧
    (isTerminal s = true → ∀ j, j ∈ jobs → j ∉ s.pending →
      s.out[j.index]? = some (outOf execOut j)) := by
  obtain ⟨k, hinv⟩ := runSteps_inv hIdx hNodup acts (initRun α jobs opts) 0 s hrun
    (runInv_init α execOut jobs opts)
  refine ⟨?_, ⟨rfl, rfl, rfl⟩, ?_⟩
  · intro j hjp
    have hjdrop : j ∈ jobs.drop k := by rw [← hinv.pending_eq]; exact hjp
    have hjmem : j ∈ jobs := List.drop_subset k jobs hjdrop
    rcases hinv.out_char j.index (hIdx j hjmem) with h | ⟨j2, hj2t, hj2i, -, -⟩
    · exact h
    · exact absurd hj2i (index_ne_of_take_drop hNodup hj2t hjdrop)
  · intro hterm j hj hnp
    have hjtake : j ∈ jobs.take k := by
      have hsplit := List.take_append_drop k jobs
      rw [← hsplit] at hj
      rcases List.mem_append.mp hj with h | h
      · exact h
      · exact absurd (by rw [hinv.pending_eq]; exact h) hnp
    rcases hinv.disp_acct j hjtake with ⟨w, hw⟩ | hout
    · exfalso
      have hmem : WorkerState.busy j ∈ s.workers := List.getElem?_mem hw
      have hall := List.all_eq_true.mp hterm _ hmem
      rw [beq_iff_eq] at hall
      exact WorkerState.noConfusion hall
    · exact hout

/-- Claim C5 counterexample:  In the spec's own scenario (jobs `{0..4}`,
parallelism 2, fail-fast, job 1 fails) there is a complete execution in
which job 4 is never dispatched, yet its final outcome is the zero-valued
`QueryResult` — `Skipped = false`, empty `SkipWhy`, no error — not a
cancellation-skip as the claim requires.  (Job 0, already dispatched,
completes normally.) -/
theorem Run_failFast_counterexample :
    runSteps cexec copts.failFast (initRun Nat cjobs copts) cacts = some cfinal ∧
    isTerminal cfinal = true ∧
    (⟨4, "q4", "Q4", "C4"⟩ : QueryJob) ∈ cfinal.pending ∧
    cfinal.out[4]? = some (zeroResult Nat) ∧
    (zeroResult Nat).skipped = false ∧ (zeroResult Nat).skipWhy = "" ∧
    cfinal.out[0]? = some ⟨⟨["x"], [[0]]⟩, none, false, ""⟩ := by decide

theorem Run_failFast_amended_witness :
    cfinal.out[4]? = some (zeroResult Nat) ∧
    cfinal.out[0]? = some (outOf cexec ⟨0, "q0", "Q0", "C0"⟩) := by
  have h := Run_failFast_amended Nat cexec copts cjobs (by decide) (by decide)
    cacts cfinal (by decide)
  exact ⟨h.1 ⟨4, "q4", "Q4", "C4"⟩ (by decide),
    h.2.2 (by decide) ⟨0, "q0", "Q0", "C0"⟩ (by decide) (by decide)⟩

/-- The outputs of the plan pass do not depend on the two counters, the job
count does not either, and the recorded original indices shift with `i`. -/
theorem planLoop_indep {α : Type} (ss : Bool) (p : Presence) :
    ∀ (qs : List Query) (i jcount : Nat),
      (planLoop (α := α) ss p qs i jcount).1 = (planLoop (α := α) ss p qs 0 0).1 ∧
      (planLoop (α := α) ss p qs i jcount).2.1.length =
        (planLoop (α := α) ss p qs 0 0).2.1.length ∧
      (planLoop (α := α) ss p qs i jcount).2.2 =
        (planLoop (α := α) ss p qs 0 0).2.2.map (· + i) := by
  intro qs
  induction qs with
  | nil => intro i jcount; refine ⟨rfl, rfl, rfl⟩
  | cons q rest ih =>
    intro i jcount
    by_cases hskip : (ss && !(CanRunCypher q.cypher p).1) = true
    · simp only [planLoop, hskip, if_true]
      obtain ⟨ho1, hl1, hj1⟩ := ih (i + 1) jcount
      obtain ⟨ho2, hl2, hj2⟩ := ih 1 0
      refine ⟨by rw [ho1, ho2], by rw [hl1, hl2], ?_⟩
      rw [hj1, hj2, List.map_map]
      refine List.map_congr_left (fun e _ => ?_)
      simp only [Function.comp]
      omega
    · simp only [planLoop, hskip, Bool.false_eq_true, if_false]
      obtain ⟨ho1, hl1, hj1⟩ := ih (i + 1) (jcount + 1)
      obtain ⟨ho2, hl2, hj2⟩ := ih 1 1
      refine ⟨by rw [ho1, ho2], by simp [hl1, hl2], ?_⟩
      simp only [List.map_cons]
      rw [hj1, hj2, List.map_map]
      refine congrArg₂ List.cons (by omega) ?_
      refine List.map_congr_left (fun e _ => ?_)
      simp only [Function.comp]
      omega

/-- Merging into a one-longer output list with all indices shifted by one
leaves the head untouched. -/
theorem mergeLoop_shift {α : Type} (qh : Query) (qs : List Query) :
    ∀ (results : List (QueryResult α)) (l : List Nat) (outs : List (Output α))
      (o : Output α),
      mergeLoop (qh :: qs) results (l.map (· + 1)) (o :: outs) =
        o :: mergeLoop qs results l outs := by
  intro results
  induction results with
  | nil => intro l outs o; cases l <;> rfl
  | cons r rs ih =>
    intro l outs o
    cases l with
    | nil => rfl
    | cons i l2 =>
      show mergeLoop (qh :: qs) rs (l2.map (· + 1))
          ((o :: outs).set (i + 1) (outputOfResult ((qh :: qs).getD (i + 1) zeroQuery) r)) = _
      have hset : (o :: outs).set (i + 1)
          (outputOfResult ((qh :: qs).getD (i + 1) zeroQuery) r) =
          o :: outs.set i (outputOfResult (qs.getD i zeroQuery) r) := rfl
      rw [hset, ih]
      rfl

theorem specAssemble_props {α : Type} (ss : Bool) (p : Presence) :
    ∀ (qs : List Query) (results : List (QueryResult α)) (outs : List (Output α)),
      specAssemble ss p qs results = some outs →
      outs.length = qs.length ∧
      ∀ i, i < qs.length →
        (outs.getD i (zeroOutput α)).query = qs.getD i zeroQuery := by
  intro qs
  induction qs with
  | nil =>
    intro results outs h
    cases results with
    | nil =>
      cases h
      exact ⟨rfl, fun i hi => absurd hi (by simp)⟩
    | cons r rs => exact absurd h (by simp [specAssemble])
  | cons q rest ih =>
    intro results outs h
    unfold specAssemble at h
    by_cases hskip : (ss && !(CanRunCypher q.cypher p).1) = true
    · rw [if_pos hskip] at h
      rcases Option.map_eq_some'.mp h with ⟨outs2, h2, rfl⟩
      obtain ⟨hlen, hq⟩ := ih results outs2 h2
      refine ⟨by simp [hlen], ?_⟩
      intro i hi
      cases i with
      | zero => rfl
      | succ i2 =>
        show (outs2.getD i2 (zeroOutput α)).query = rest.getD i2 zeroQuery
        exact hq i2 (by simpa using hi)
    · rw [if_neg hskip] at h
      cases results with
      | nil => exact absurd h (by simp)
      | cons r rs =>
        rcases Option.map_eq_some'.mp h with ⟨outs2, h2, rfl⟩
        obtain ⟨hlen, hq⟩ := ih rs outs2 h2
        refine ⟨by simp [hlen], ?_⟩
        intro i hi
        cases i with
        | zero => rfl
        | succ i2 =>
          show (outs2.getD i2 (zeroOutput α)).query = rest.getD i2 zeroQuery
          exact hq i2 (by simpa using hi)

/-- Claim C9: The merge of `main` against the spec's §4.4 contract: whenever
the scheduler returns one result per dispatched job (which `Run`
guarantees), the merged collection equals the specified merge — every entry
is either the planner's skip (with its human-readable reason) or the
scheduler's outcome for that query — and it has the length of the original
query list and carries the queries in original order.  The merge is a pure
function of its inputs (no I/O) and is total: no query's error aborts it. -/
theorem assembleOutputs_merges (α : Type) (ss : Bool) (p : Presence)
    (qs : List Query) (results : List (QueryResult α))
    (hres : results.length = (planLoop (α := α) ss p qs 0 0).2.1.length) :
    specAssemble ss p qs results = some (assembleOutputs ss p qs results) ∧
    (assembleOutputs ss p qs results).length = qs.length ∧
    (∀ i, i < qs.length →
      ((assembleOutputs ss p qs results).getD i (zeroOutput α)).query =
        qs.getD i zeroQuery) := by
  have hmain : specAssemble ss p qs results = some (assembleOutputs ss p qs results) := by
    induction qs generalizing results with
    | nil =>
      cases results with
      | nil => rfl
      | cons r rs => exact absurd hres (by simp [planLoop])
    | cons q rest ih =>
      by_cases hskip : (ss && !(CanRunCypher q.cypher p).1) = true
      · have hassemble : assembleOutputs ss p (q :: rest) results =
            (⟨q, ⟨[], []⟩, "", true, (CanRunCypher q.cypher p).2⟩ : Output α) ::
              assembleOutputs ss p rest results := by
          unfold assembleOutputs
          simp only [planLoop, hskip, if_true]
          obtain ⟨ho, -, hj⟩ := planLoop_indep (α := α) ss p rest 1 0
          rw [ho, hj]
          exact mergeLoop_shift q rest results _ _ _
        have hres2 : results.length = (planLoop (α := α) ss p rest 0 0).2.1.length := by
          rw [hres]
          simp only [planLoop, hskip, if_true]
          exact (planLoop_indep (α := α) ss p rest 1 0).2.1
        rw [hassemble]
        unfold specAssemble
        rw [if_pos hskip, ih results hres2]
        rfl
      · have hres1 : results.length = (planLoop (α := α) ss p rest 0 0).2.1.length + 1 := by
          rw [hres]
          simp only [planLoop, hskip, Bool.false_eq_true, if_false, List.length_cons]
          rw [(planLoop_indep (α := α) ss p rest 1 1).2.1]
        cases results with
        | nil => simp at hres1
        | cons r rs =>
          have hres2 : rs.length = (planLoop (α := α) ss p rest 0 0).2.1.length := by
            simpa using hres1
          have hassemble : assembleOutputs ss p (q :: rest) (r :: rs) =
              outputOfResult q r :: assembleOutputs ss p rest rs := by
            unfold assembleOutputs
            simp only [planLoop, hskip, Bool.false_eq_true, if_false]
            obtain ⟨ho, -, hj⟩ := planLoop_indep (α := α) ss p rest 1 1
            rw [ho, hj]
            show mergeLoop (q :: rest) rs _
                ((zeroOutput α :: (planLoop ss p rest 0 0).1).set 0
                  (outputOfResult ((q :: rest).getD 0 zeroQuery) r)) = _
            have hset : (zeroOutput α :: (planLoop (α := α) ss p rest 0 0).1).set 0
                (outputOfResult ((q :: rest).getD 0 zeroQuery) r) =
                outputOfResult q r :: (planLoop (α := α) ss p rest 0 0).1 := rfl
            rw [hset]
            exact mergeLoop_shift q rest rs _ _ _
          rw [hassemble]
          unfold specAssemble
          rw [if_neg hskip]
          dsimp only []
          rw [ih rs hres2]
          rfl
  obtain ⟨hlen, hq⟩ := specAssemble_props ss p qs results _ hmain
  exact ⟨hmain, hlen, hq⟩

theorem assembleOutputs_merges_witness :
    [wres1].length = (planLoop (α := Nat) true wpres [wq1, wq2] 0 0).2.1.length ∧
    assembleOutputs true wpres [wq1, wq2] [wres1] =
      [⟨wq1, ⟨[], []⟩, "", true, "missing label: Ghost"⟩, outputOfResult wq2 wres1] ∧
    specAssemble true wpres [wq1, wq2] [wres1] =
      some (assembleOutputs true wpres [wq1, wq2] [wres1]) ∧
    (assembleOutputs true wpres [wq1, wq2] [wres1]).length = 2 := by
  have h := assembleOutputs_merges Nat true wpres [wq1, wq2] [wres1] (by decide)
  exact ⟨by decide, by decide, h.1, h.2.1⟩

end GoBloodyEll
